import Mathlib

/-
  Verification of the heredity inference engine
  (src/Project2/heredity/heredity.py).

  Shallow embedding: Python floats are modelled as rationals (every
  constant of the parameter table is an exact hundredth, and the engine
  only adds, multiplies and divides them); Python dicts keyed by person
  name are modelled as association lists in insertion order; Python sets
  of names are modelled as `Finset String` (only membership is ever
  queried); Python's fallible float division (ZeroDivisionError) is
  modelled with `Option`.
-/

namespace Heredity

/-- One person's record, as `load_data` builds it: optional mother and
father identifiers and a tri-state observed trait.  (The source record
also stores the person's own name redundantly; the name lives in the
association-list key here.) -/
structure Person where
  mother : Option String
  father : Option String
  trait : Option Bool

/-- `PROBS["gene"]`: unconditional prior for a founder's gene count. -/
def PROBS_gene : Nat → ℚ
  | 2 => 1 / 100
  | 1 => 3 / 100
  | 0 => 96 / 100
  | _ => 0  -- unreachable: gene counts are always 0, 1 or 2

/-- `PROBS["trait"]`: probability of the trait value given the gene count. -/
def PROBS_trait : Nat → Bool → ℚ
  | 2, true => 65 / 100
  | 2, false => 35 / 100
  | 1, true => 56 / 100
  | 1, false => 44 / 100
  | 0, true => 1 / 100
  | 0, false => 99 / 100
  | _, _ => 0  -- unreachable: gene counts are always 0, 1 or 2

/-- `PROBS["mutation"]`. -/
def PROBS_mutation : ℚ := 1 / 100

/-- `1 if person in one_gene else 2 if person in two_genes else 0`. -/
def geneNumber (one_gene two_genes : Finset String) (person : String) : Nat :=
  if person ∈ one_gene then 1 else if person ∈ two_genes then 2 else 0

/-- The same expression applied to `people[person]['mother']` /
`people[person]['father']`, which may be Python `None`: `None in s` is
`False` for a set of strings, so a missing parent gets gene number 0. -/
def parentGeneNumber (one_gene two_genes : Finset String) (ppl : Option String) : Nat :=
  match ppl with
  | some p => geneNumber one_gene two_genes p
  | none => 0

/-- `perc = 0 + PROBS['mutation'] if number == 0 else 0.5 if number == 1
else 1 - PROBS['mutation']` in `joint_probability`. -/
def transmitProb (number : Nat) : ℚ :=
  if number = 0 then 0 + PROBS_mutation
  else if number = 1 then 1 / 2
  else 1 - PROBS_mutation

/-- The `if gene_number == 0 / elif gene_number == 1 / else` branches of
`joint_probability`: the child's gene-count probability from the two
parents' transmission probabilities. -/
def childGeneProb (motherPerc fatherPerc : ℚ) (gene_number : Nat) : ℚ :=
  if gene_number = 0 then (1 - motherPerc) * (1 - fatherPerc)
  else if gene_number = 1 then
    (1 - motherPerc) * fatherPerc + motherPerc * (1 - fatherPerc)
  else motherPerc * fatherPerc

/-- The factor the loop body of `joint_probability` multiplies into
`probability` for one person. -/
def personContribution (one_gene two_genes have_trait : Finset String)
    (name : String) (pers : Person) : ℚ :=
  let gene_number := geneNumber one_gene two_genes name
  let trait := decide (name ∈ have_trait)
  let gene_numb_prop := PROBS_gene gene_number
  let trait_prop := PROBS_trait gene_number trait
  match pers.mother with
  | none => gene_numb_prop * trait_prop
  | some mother =>
      let motherPerc := transmitProb (parentGeneNumber one_gene two_genes (some mother))
      let fatherPerc := transmitProb (parentGeneNumber one_gene two_genes pers.father)
      childGeneProb motherPerc fatherPerc gene_number * trait_prop

/-- `joint_probability(people, one_gene, two_genes, have_trait)`:
starts at 1 and multiplies in every person's contribution. -/
def joint_probability (people : List (String × Person))
    (one_gene two_genes have_trait : Finset String) : ℚ :=
  people.foldl
    (fun probability pr =>
      probability * personContribution one_gene two_genes have_trait pr.1 pr.2) 1

/-- `itertools.combinations(s, r)`: all `r`-element subsequences of `s`,
those containing the head first. -/
def combinations : Nat → List String → List (List String)
  | 0, _ => [[]]
  | _ + 1, [] => []
  | r + 1, x :: xs => ((combinations r xs).map (fun c => x :: c)) ++ combinations (r + 1) xs

/-- `powerset(s)`: `itertools.chain.from_iterable(combinations(s, r) for r
in range(len(s) + 1))`, each combination turned back into a set.  Python
iterates the input set in an unspecified order; the order of the ambient
list `s` stands for it. -/
def powerset (s : List String) : List (Finset String) :=
  (((List.range (s.length + 1)).map (fun r => combinations r s)).flatten).map List.toFinset

/-- The `fails_evidence` check of `main`: some person has a recorded
trait value different from their membership in `have_trait`. -/
def fails_evidence (people : List (String × Person)) (have_trait : Finset String) : Bool :=
  people.any (fun pr =>
    match pr.2.trait with
    | some t => t != decide (pr.1 ∈ have_trait)
    | none => false)

/-- The trait-subsets `main`'s outer loop does not `continue` past. -/
def acceptedTraitSets (people : List (String × Person)) : List (Finset String) :=
  (powerset (people.map Prod.fst)).filter (fun ht => !fails_evidence people ht)

/-- The two nested gene loops of `main`: `one_gene` over `powerset(names)`
and `two_genes` over `powerset(names - one_gene)`. -/
def geneHypotheses (names : List String) : List (Finset String × Finset String) :=
  ((powerset names).map (fun one_gene =>
    (powerset (names.filter (fun x => x ∉ one_gene))).map
      (fun two_genes => (one_gene, two_genes)))).flatten

/-- The full enumeration of `main`: every accepted trait-subset paired
with every (one_gene, two_genes) split. -/
def hypotheses (people : List (String × Person)) :
    List (Finset String × Finset String × Finset String) :=
  ((acceptedTraitSets people).map (fun have_trait =>
    (geneHypotheses (people.map Prod.fst)).map
      (fun gg => (have_trait, gg.1, gg.2)))).flatten

/-- One person's accumulated buckets: `probabilities[person]["gene"]`
(keys 2, 1, 0) and `probabilities[person]["trait"]` (keys True, False). -/
structure PTable where
  gene2 : ℚ
  gene1 : ℚ
  gene0 : ℚ
  traitT : ℚ
  traitF : ℚ

/-- `sum(probabilities[person]["gene"].values())` (keys iterate 2, 1, 0). -/
def geneSum (t : PTable) : ℚ := t.gene2 + t.gene1 + t.gene0

/-- `sum(probabilities[person]["trait"].values())` (keys iterate True, False). -/
def traitSum (t : PTable) : ℚ := t.traitT + t.traitF

/-- The body of `normalize` for one person: divide the gene buckets by the
gene sum, then the trait buckets by the trait sum, each sum taken just
before its own division pass.  Python float division raises
`ZeroDivisionError` on a zero divisor, modelled as `none`. -/
def normalizePerson (t : PTable) : Option PTable :=
  let gene_summed := geneSum t
  if gene_summed = 0 then none
  else
    let t1 : PTable :=
      { t with gene2 := t.gene2 / gene_summed, gene1 := t.gene1 / gene_summed,
               gene0 := t.gene0 / gene_summed }
    let trait_summed := traitSum t1
    if trait_summed = 0 then none
    else
      some { t1 with traitT := t1.traitT / trait_summed, traitF := t1.traitF / trait_summed }

/-- `normalize(probabilities)` as a value: process each person in order;
a zero bucket sum aborts the whole call (the exception propagates). -/
def normalize : List (String × PTable) → Option (List (String × PTable))
  | [] => some []
  | (name, t) :: rest =>
    match normalizePerson t with
    | none => none
    | some t2 =>
      match normalize rest with
      | none => none
      | some r => some ((name, t2) :: r)

/-- Heap picture of `normalize`: `probabilities` maps each person to a
reference into a store of inner bucket dictionaries; `normalized =
probabilities.copy()` copies only the outer mapping, so every write of
the loop goes through the same references the caller's argument holds. -/
def normalizeLoop : List (String × Nat) → (Nat → PTable) → Option (Nat → PTable)
  | [], store => some store
  | (_, ref) :: rest, store =>
    match normalizePerson (store ref) with
    | none => none
    | some t2 => normalizeLoop rest (Function.update store ref t2)

/-- The fully normalized buckets of one person: every bucket is its
accumulated mass divided by that person's bucket sum. -/
def normalizedPerson (t : PTable) : PTable :=
  ⟨t.gene2 / geneSum t, t.gene1 / geneSum t, t.gene0 / geneSum t,
   t.traitT / traitSum t, t.traitF / traitSum t⟩

/- Specification-side definitions (for the refinement claim): the
per-person contribution as §4.2 of the design words it. -/

/-- Spec §4.2: transmission probability of a parent from their
hypothesized gene-copy count. -/
def specTransmit (count : Nat) : ℚ :=
  if count = 0 then PROBS_mutation
  else if count = 1 then 1 / 2
  else 1 - PROBS_mutation

/-- Spec §4.2: the child's gene-count probability from the two parents'
transmission probabilities. -/
def specChildGeneProb (mTransmit fTransmit : ℚ) : Nat → ℚ
  | 0 => (1 - mTransmit) * (1 - fTransmit)
  | 1 => (1 - mTransmit) * fTransmit + mTransmit * (1 - fTransmit)
  | _ => mTransmit * fTransmit

/-- Spec §4.2: one person's individual contribution.  A founder (no
recorded parents) contributes prior × likelihood; a person with recorded
parents contributes (transmission-derived child gene probability) ×
likelihood.  A person with exactly one recorded parent is excluded by the
pedigree invariant of §3; this total definition gives such a person the
founder formula, which the refinement theorem never relies on. -/
def specContribution (one_gene two_genes have_trait : Finset String)
    (name : String) (pers : Person) : ℚ :=
  let g := geneNumber one_gene two_genes name
  let likelihood := PROBS_trait g (decide (name ∈ have_trait))
  match pers.mother, pers.father with
  | some m, some f =>
      specChildGeneProb (specTransmit (geneNumber one_gene two_genes m))
        (specTransmit (geneNumber one_gene two_genes f)) g * likelihood
  | _, _ => PROBS_gene g * likelihood

/-- A three-person pedigree (two founders, one child) used to instantiate
hypotheses of the refinement theorem at a concrete input. -/
def witnessFamily : List (String × Person) :=
  [("Lily", ⟨none, none, none⟩), ("James", ⟨none, none, none⟩),
   ("Harry", ⟨some "Lily", some "James", none⟩)]

/-! Theorems. -/

theorem foldl_mul_eq_prod {α : Type} (f : α → ℚ) (l : List α) (init : ℚ) :
    l.foldl (fun a x => a * f x) init = init * (l.map f).prod := by
  induction l generalizing init with
  | nil => simp
  | cons x xs ih => simp [ih, mul_assoc]

theorem joint_probability_eq_prod (people : List (String × Person))
    (one_gene two_genes have_trait : Finset String) :
    joint_probability people one_gene two_genes have_trait
      = (people.map
          (fun pr => personContribution one_gene two_genes have_trait pr.1 pr.2)).prod := by
  unfold joint_probability
  rw [foldl_mul_eq_prod, one_mul]

theorem transmitProb_eq_specTransmit (n : Nat) : transmitProb n = specTransmit n := by
  unfold transmitProb specTransmit
  rw [zero_add]

theorem childGeneProb_eq_spec (m f : ℚ) (n : Nat) :
    childGeneProb m f n = specChildGeneProb m f n := by
  match n with
  | 0 => rfl
  | 1 => rfl
  | _ + 2 => rfl

theorem personContribution_eq_spec (one_gene two_genes have_trait : Finset String)
    (name : String) (pers : Person)
    (hinv : pers.mother.isSome = pers.father.isSome) :
    personContribution one_gene two_genes have_trait name pers
      = specContribution one_gene two_genes have_trait name pers := by
  obtain ⟨mo, fa, tr⟩ := pers
  cases mo with
  | none =>
    cases fa with
    | none => rfl
    | some f => simp at hinv
  | some m =>
    cases fa with
    | none => simp at hinv
    | some f =>
      simp only [personContribution, specContribution, parentGeneNumber,
        transmitProb_eq_specTransmit, childGeneProb_eq_spec]

/-- C1: `joint_probability` is the product over all persons of the
individual contribution §4.2 describes — prior × likelihood for a
founder, transmission-derived child gene probability × likelihood for a
person with recorded parents — and for an all-founder population it is
the product of the founders' prior × likelihood terms with no cross
terms. -/
theorem joint_probability_refines_spec (people : List (String × Person))
    (one_gene two_genes have_trait : Finset String)
    (hinv : ∀ pr ∈ people, pr.2.mother.isSome = pr.2.father.isSome) :
    joint_probability people one_gene two_genes have_trait
        = (people.map
            (fun pr => specContribution one_gene two_genes have_trait pr.1 pr.2)).prod
      ∧ ((∀ pr ∈ people, pr.2.mother = none ∧ pr.2.father = none) →
        joint_probability people one_gene two_genes have_trait
          = (people.map (fun pr =>
              PROBS_gene (geneNumber one_gene two_genes pr.1)
                * PROBS_trait (geneNumber one_gene two_genes pr.1)
                  (decide (pr.1 ∈ have_trait)))).prod) := by
  constructor
  · rw [joint_probability_eq_prod]
    exact congrArg List.prod (List.map_congr_left (fun pr hpr =>
      personContribution_eq_spec _ _ _ _ _ (hinv pr hpr)))
  · intro hfound
    rw [joint_probability_eq_prod]
    refine congrArg List.prod (List.map_congr_left (fun pr hpr => ?_))
    simp [personContribution, (hfound pr hpr).1]

theorem joint_probability_refines_spec_witness :
    joint_probability witnessFamily {"Harry"} ∅ {"Harry"}
        = (witnessFamily.map
            (fun pr => specContribution {"Harry"} ∅ {"Harry"} pr.1 pr.2)).prod
      ∧ ((∀ pr ∈ witnessFamily, pr.2.mother = none ∧ pr.2.father = none) →
        joint_probability witnessFamily {"Harry"} ∅ {"Harry"}
          = (witnessFamily.map (fun pr =>
              PROBS_gene (geneNumber {"Harry"} ∅ pr.1)
                * PROBS_trait (geneNumber {"Harry"} ∅ pr.1)
                  (decide (pr.1 ∈ ({"Harry"} : Finset String))))).prod) :=
  joint_probability_refines_spec witnessFamily {"Harry"} ∅ {"Harry"} (by decide)

/-- C4: for any two parental genotypes, the child gene-count
probabilities computed by the transmission formula for 0, 1 and 2 copies
sum exactly to 1. -/
theorem child_gene_distribution_sums_to_one (mg fg : Nat) :
    childGeneProb (transmitProb mg) (transmitProb fg) 0
      + childGeneProb (transmitProb mg) (transmitProb fg) 1
      + childGeneProb (transmitProb mg) (transmitProb fg) 2 = 1 := by
  show (1 - transmitProb mg) * (1 - transmitProb fg)
      + ((1 - transmitProb mg) * transmitProb fg
        + transmitProb mg * (1 - transmitProb fg))
      + transmitProb mg * transmitProb fg = 1
  ring

/-- C7: the empty population is enumerated as exactly one trivial
hypothesis, whose joint probability is 1. -/
theorem empty_population_trivial_hypothesis :
    hypotheses [] = [(∅, ∅, ∅)] ∧ joint_probability [] ∅ ∅ ∅ = 1 := by
  constructor
  · decide
  · rfl

/-- C8: for the two-founder population of the repository's simple test,
the all-empty hypothesis has joint probability
P(0 genes)² × P(trait = false | 0 genes)² = (96/100)² × (99/100)². -/
theorem two_founders_joint_probability :
    joint_probability
        [("person1", ⟨none, none, none⟩), ("person2", ⟨none, none, none⟩)] ∅ ∅ ∅
      = (96 / 100 : ℚ) ^ 2 * (99 / 100) ^ 2 := by
  show 1 * (PROBS_gene 0 * PROBS_trait 0 false) * (PROBS_gene 0 * PROBS_trait 0 false)
      = (96 / 100 : ℚ) ^ 2 * (99 / 100) ^ 2
  norm_num [PROBS_gene, PROBS_trait]

/-- C10: founder status is keyed on the mother field alone — a person
whose mother is unset is given the unconditional prior even when a
father is recorded, and the recorded father changes nothing. -/
theorem founder_decided_by_mother_only (one_gene two_genes have_trait : Finset String)
    (name : String) (fa : Option String) (tr : Option Bool) :
    personContribution one_gene two_genes have_trait name ⟨none, fa, tr⟩
        = PROBS_gene (geneNumber one_gene two_genes name)
          * PROBS_trait (geneNumber one_gene two_genes name) (decide (name ∈ have_trait))
      ∧ personContribution one_gene two_genes have_trait name ⟨none, fa, tr⟩
        = personContribution one_gene two_genes have_trait name ⟨none, none, tr⟩ :=
  ⟨rfl, rfl⟩

theorem normalizePerson_eq_some (t : PTable) (hg : geneSum t ≠ 0) (ht : traitSum t ≠ 0) :
    normalizePerson t = some (normalizedPerson t) := by
  obtain ⟨a, b, c, d, e⟩ := t
  simp only [geneSum, traitSum] at hg ht
  simp [normalizePerson, normalizedPerson, geneSum, traitSum, hg, ht]

theorem normalizePerson_eq_none (t : PTable) (h : geneSum t = 0 ∨ traitSum t = 0) :
    normalizePerson t = none := by
  obtain ⟨a, b, c, d, e⟩ := t
  simp only [geneSum, traitSum] at h
  rcases h with h | h
  · simp [normalizePerson, geneSum, h]
  · rcases eq_or_ne (a + b + c) 0 with hg | hg
    · simp [normalizePerson, geneSum, hg]
    · simp [normalizePerson, geneSum, traitSum, hg, h]

/-- C2: a zero bucket sum at normalization time is reported to the caller
(the division is never completed into a probability; the whole call
signals failure). -/
theorem normalize_zero_bucket_none (table : List (String × PTable))
    (h : ∃ pr ∈ table, geneSum pr.2 = 0 ∨ traitSum pr.2 = 0) :
    normalize table = none := by
  revert h
  induction table with
  | nil => intro h; simp at h
  | cons x rest ih =>
    intro h
    obtain ⟨xn, xt⟩ := x
    obtain ⟨pr, hpr, hz⟩ := h
    rcases List.mem_cons.mp hpr with rfl | hmem
    · simp [normalize, normalizePerson_eq_none _ hz]
    · have hrest := ih ⟨pr, hmem, hz⟩
      cases hnp : normalizePerson xt with
      | none => simp [normalize, hnp]
      | some t2 => simp [normalize, hnp, hrest]

theorem normalize_zero_bucket_none_witness :
    normalize [("person1", ⟨0, 0, 0, 0, 0⟩)] = none :=
  normalize_zero_bucket_none [("person1", ⟨0, 0, 0, 0, 0⟩)]
    ⟨("person1", ⟨0, 0, 0, 0, 0⟩), by simp, Or.inl (by simp [geneSum])⟩

/-- C3: when every bucket sum is nonzero, `normalize` succeeds, every
bucket becomes its accumulated mass divided by that person's bucket sum
(so relative proportions are unchanged), and each person's gene and
trait distributions sum to 1. -/
theorem normalize_sums_to_one (table : List (String × PTable))
    (h : ∀ pr ∈ table, geneSum pr.2 ≠ 0 ∧ traitSum pr.2 ≠ 0) :
    normalize table = some (table.map (fun pr => (pr.1, normalizedPerson pr.2)))
      ∧ ∀ pr ∈ table, geneSum (normalizedPerson pr.2) = 1
        ∧ traitSum (normalizedPerson pr.2) = 1 := by
  constructor
  · revert h
    induction table with
    | nil => intro h; rfl
    | cons x rest ih =>
      intro h
      obtain ⟨xn, xt⟩ := x
      have hx := h (xn, xt) (List.mem_cons_self _ _)
      simp [normalize, normalizePerson_eq_some xt hx.1 hx.2,
        ih (fun pr hpr => h pr (List.mem_cons_of_mem _ hpr))]
  · intro pr hpr
    obtain ⟨n, t⟩ := pr
    obtain ⟨hg, ht⟩ := h (n, t) hpr
    simp only [geneSum, traitSum, normalizedPerson] at hg ht ⊢
    constructor
    · rw [div_add_div_same, div_add_div_same, div_self hg]
    · rw [div_add_div_same, div_self ht]

theorem normalize_sums_to_one_witness :
    normalize [("person1", ⟨1, 0, 0, 1, 0⟩)]
        = some ([("person1", (⟨1, 0, 0, 1, 0⟩ : PTable))].map
            (fun pr => (pr.1, normalizedPerson pr.2)))
      ∧ ∀ pr ∈ [("person1", (⟨1, 0, 0, 1, 0⟩ : PTable))],
        geneSum (normalizedPerson pr.2) = 1 ∧ traitSum (normalizedPerson pr.2) = 1 :=
  normalize_sums_to_one [("person1", ⟨1, 0, 0, 1, 0⟩)]
    (by simp [geneSum, traitSum])

theorem normalizeLoop_untouched (l : List (String × Nat)) :
    ∀ st st2 : Nat → PTable, normalizeLoop l st = some st2 →
      ∀ x : Nat, x ∉ l.map Prod.snd → st2 x = st x := by
  induction l with
  | nil =>
    intro st st2 heq x _
    cases heq
    rfl
  | cons p rest ih =>
    intro st st2 heq x hx
    obtain ⟨pn, r⟩ := p
    simp only [List.map_cons, List.mem_cons, not_or] at hx
    cases hnp : normalizePerson (st r) with
    | none => simp [normalizeLoop, hnp] at heq
    | some t2 =>
      have heq2 : normalizeLoop rest (Function.update st r t2) = some st2 := by
        simpa [normalizeLoop, hnp] using heq
      rw [ih _ _ heq2 x hx.2, Function.update_noteq hx.1]

/-- C9: `normalize` copies only the outer person → inner-dictionaries
mapping, so its bucket writes land in the very dictionaries the caller's
argument holds: after the call the argument's view of the store holds the
normalized distributions (the discarded return value is not needed). -/
theorem normalize_inplace_effect (outer : List (String × Nat)) :
    ∀ store : Nat → PTable, (outer.map Prod.snd).Nodup →
      (∀ pr ∈ outer, geneSum (store pr.2) ≠ 0 ∧ traitSum (store pr.2) ≠ 0) →
      ∃ store2, normalizeLoop outer store = some store2
        ∧ ∀ pr ∈ outer, store2 pr.2 = normalizedPerson (store pr.2) := by
  induction outer with
  | nil =>
    intro store _ _
    exact ⟨store, rfl, by simp⟩
  | cons p rest ih =>
    intro store hrefs h
    obtain ⟨pn, r⟩ := p
    simp only [List.map_cons, List.nodup_cons] at hrefs
    obtain ⟨hg, htr⟩ := h (pn, r) (List.mem_cons_self _ _)
    have hupd : ∀ pr ∈ rest,
        Function.update store r (normalizedPerson (store r)) pr.2 = store pr.2 := by
      intro pr hpr
      have hne : pr.2 ≠ r := fun hc =>
        hrefs.1 (hc ▸ List.mem_map_of_mem Prod.snd hpr)
      exact Function.update_noteq hne _ _
    obtain ⟨store2, heq, hall⟩ :=
      ih (Function.update store r (normalizedPerson (store r))) hrefs.2
        (fun pr hpr => by
          rw [hupd pr hpr]
          exact h pr (List.mem_cons_of_mem _ hpr))
    refine ⟨store2, ?_, ?_⟩
    · simp [normalizeLoop, normalizePerson_eq_some (store r) hg htr, heq]
    · intro pr hpr
      rcases List.mem_cons.mp hpr with rfl | hmem
      · rw [normalizeLoop_untouched rest _ store2 heq _ hrefs.1,
          Function.update_same]
      · rw [hall pr hmem, hupd pr hmem]

theorem normalize_inplace_effect_witness :
    ∃ store2,
      normalizeLoop [("person1", 0)] (fun _ => (⟨1, 0, 0, 1, 0⟩ : PTable)) = some store2
        ∧ ∀ pr ∈ [("person1", 0)],
          store2 pr.2 = normalizedPerson ((fun _ => (⟨1, 0, 0, 1, 0⟩ : PTable)) pr.2) :=
  normalize_inplace_effect [("person1", 0)] (fun _ => (⟨1, 0, 0, 1, 0⟩ : PTable))
    (by simp) (by simp [geneSum, traitSum])

theorem length_combinations (r : Nat) (s : List String) :
    (combinations r s).length = s.length.choose r := by
  induction s generalizing r with
  | nil => cases r <;> simp [combinations]
  | cons x xs ih =>
    cases r with
    | zero => simp [combinations]
    | succ r =>
      simp [combinations, ih, Nat.choose_succ_succ']

theorem listSum_map_range (f : Nat → Nat) (n : Nat) :
    ((List.range n).map f).sum = ∑ i ∈ Finset.range n, f i := by
  induction n with
  | zero => rfl
  | succ n ih =>
    rw [List.range_succ, List.map_append, List.sum_append, Finset.sum_range_succ, ih]
    simp

theorem length_powerset (s : List String) : (powerset s).length = 2 ^ s.length := by
  rw [powerset, List.length_map, List.length_flatten, List.map_map]
  have hcomp : (List.length ∘ fun r => combinations r s)
      = fun r => s.length.choose r := by
    funext r
    simp [length_combinations]
  rw [hcomp, listSum_map_range, Nat.sum_range_choose]

theorem mem_combinations {r : Nat} {s l : List String} (h : l ∈ combinations r s) :
    l.Sublist s ∧ l.length = r := by
  induction s generalizing r l with
  | nil =>
    cases r with
    | zero =>
      simp [combinations] at h
      subst h
      exact ⟨List.Sublist.refl _, rfl⟩
    | succ r => simp [combinations] at h
  | cons x xs ih =>
    cases r with
    | zero =>
      simp [combinations] at h
      subst h
      exact ⟨List.nil_sublist _, rfl⟩
    | succ r =>
      rcases List.mem_append.mp h with h1 | h2
      · rcases List.mem_map.mp h1 with ⟨c, hc, rfl⟩
        obtain ⟨hs, hl⟩ := ih hc
        exact ⟨hs.cons₂ x, by simp [hl]⟩
      · obtain ⟨hs, hl⟩ := ih h2
        exact ⟨hs.cons x, hl⟩

theorem filter_not_mem_length (s : List String) :
    ∀ l : List String, s.Nodup → l.Sublist s →
      (s.filter (fun x => decide (x ∉ l))).length = s.length - l.length := by
  induction s with
  | nil =>
    intro l _ hl
    rw [List.sublist_nil.mp hl]
    rfl
  | cons a s ih =>
    intro l hnd hl
    rw [List.nodup_cons] at hnd
    cases hl with
    | cons _ hsub =>
      have ha : a ∉ l := fun hc => hnd.1 (hsub.subset hc)
      rw [List.filter_cons_of_pos (by simpa using ha), List.length_cons,
        ih l hnd.2 hsub, List.length_cons]
      have := hsub.length_le
      omega
    | cons₂ _ hsub =>
      rename_i l1
      rw [List.filter_cons_of_neg (by simp)]
      have hfc : s.filter (fun x => decide (x ∉ a :: l1))
          = s.filter (fun x => decide (x ∉ l1)) := by
        apply List.filter_congr
        intro x hx
        have hxa : x ≠ a := fun hc => hnd.1 (hc ▸ hx)
        simp [hxa]
      rw [hfc, ih l1 hnd.2 hsub, List.length_cons, List.length_cons,
        Nat.succ_sub_succ]

theorem mem_powerset_decomp {s : List String} {og : Finset String}
    (h : og ∈ powerset s) : ∃ l : List String, l.Sublist s ∧ l.toFinset = og := by
  rw [powerset] at h
  rcases List.mem_map.mp h with ⟨l, hl, rfl⟩
  rcases List.mem_flatten.mp hl with ⟨blk, hblk, hlblk⟩
  rcases List.mem_map.mp hblk with ⟨r, _, rfl⟩
  exact ⟨l, (mem_combinations hlblk).1, rfl⟩

theorem sum_choose_mul_pow (n : Nat) :
    ∑ r ∈ Finset.range (n + 1), n.choose r * 2 ^ (n - r) = 3 ^ n := by
  have h := (add_pow (1 : ℕ) 2 n).symm
  simp only [one_pow, one_mul, Nat.cast_id] at h
  calc ∑ r ∈ Finset.range (n + 1), n.choose r * 2 ^ (n - r)
      = ∑ r ∈ Finset.range (n + 1), 2 ^ (n - r) * n.choose r :=
        Finset.sum_congr rfl fun r _ => Nat.mul_comm _ _
    _ = (1 + 2) ^ n := h
    _ = 3 ^ n := by norm_num

theorem geneHypotheses_length {names : List String} (hnd : names.Nodup) :
    (geneHypotheses names).length = 3 ^ names.length := by
  have stepA : (geneHypotheses names).length
      = ((powerset names).map
          (fun og => 2 ^ ((names.filter (fun x => decide (x ∉ og))).length))).sum := by
    rw [geneHypotheses, List.length_flatten, List.map_map]
    exact congrArg List.sum (List.map_congr_left (fun og _ => by
      simp [length_powerset]))
  have hmem : ∀ og ∈ powerset names,
      (2 : Nat) ^ ((names.filter (fun x => decide (x ∉ og))).length)
        = 2 ^ (names.length - og.card) := by
    intro og hog
    obtain ⟨l, hsub, rfl⟩ := mem_powerset_decomp hog
    have hfc : names.filter (fun x => decide (x ∉ l.toFinset))
        = names.filter (fun x => decide (x ∉ l)) :=
      List.filter_congr (fun x _ => decide_eq_decide.mpr (by simp))
    rw [hfc, filter_not_mem_length names l hnd hsub,
      List.toFinset_card_of_nodup (hsub.nodup hnd)]
  rw [stepA, List.map_congr_left hmem, powerset, List.map_map, List.map_flatten,
    List.sum_flatten, List.map_map, List.map_map]
  have hblock : ∀ r : Nat,
      (List.sum ∘ List.map ((fun og => 2 ^ (names.length - og.card)) ∘ List.toFinset)
          ∘ fun r => combinations r names) r
        = names.length.choose r * 2 ^ (names.length - r) := by
    intro r
    show ((combinations r names).map
        (fun l => 2 ^ (names.length - l.toFinset.card))).sum = _
    have hrep : ∀ y ∈ (combinations r names).map
        (fun l => 2 ^ (names.length - l.toFinset.card)),
        y = 2 ^ (names.length - r) := by
      intro y hy
      rcases List.mem_map.mp hy with ⟨l, hl, rfl⟩
      obtain ⟨hsub, hlen⟩ := mem_combinations hl
      rw [List.toFinset_card_of_nodup (hsub.nodup hnd), hlen]
    rw [List.eq_replicate_of_mem hrep, List.sum_replicate, List.length_map,
      length_combinations]
    simp [smul_eq_mul]
  calc ((List.range (names.length + 1)).map
        (List.sum ∘ List.map ((fun og => 2 ^ (names.length - og.card)) ∘ List.toFinset)
          ∘ fun r => combinations r names)).sum
      = ((List.range (names.length + 1)).map
          (fun r => names.length.choose r * 2 ^ (names.length - r))).sum :=
        congrArg List.sum (List.map_congr_left (fun r _ => hblock r))
    _ = ∑ r ∈ Finset.range (names.length + 1),
          names.length.choose r * 2 ^ (names.length - r) := listSum_map_range _ _
    _ = 3 ^ names.length := sum_choose_mul_pow _

/-- C5: with no trait evidence every one of the 2^n trait-subsets is
accepted, and each accepted trait-subset is paired with exactly 3^n
gene-hypotheses (one-gene subset, then two-gene subset from its
complement). -/
theorem enumeration_counts (people : List (String × Person))
    (hnd : (people.map Prod.fst).Nodup)
    (hno : ∀ pr ∈ people, pr.2.trait = none) :
    acceptedTraitSets people = powerset (people.map Prod.fst)
      ∧ (acceptedTraitSets people).length = 2 ^ people.length
      ∧ (geneHypotheses (people.map Prod.fst)).length = 3 ^ people.length := by
  have hacc : acceptedTraitSets people = powerset (people.map Prod.fst) := by
    rw [acceptedTraitSets]
    apply List.filter_eq_self.mpr
    intro ht _
    rw [Bool.not_eq_true', fails_evidence, List.any_eq_false]
    intro pr hpr
    simp [hno pr hpr]
  refine ⟨hacc, ?_, ?_⟩
  · rw [hacc, length_powerset, List.length_map]
  · rw [geneHypotheses_length hnd, List.length_map]

theorem enumeration_counts_witness :
    acceptedTraitSets witnessFamily = powerset (witnessFamily.map Prod.fst)
      ∧ (acceptedTraitSets witnessFamily).length = 2 ^ witnessFamily.length
      ∧ (geneHypotheses (witnessFamily.map Prod.fst)).length = 3 ^ witnessFamily.length :=
  enumeration_counts witnessFamily (by decide) (by decide)

/-- C6: a trait-subset passes the evidence check exactly when every
person with a recorded trait value is in the subset iff that value is
true, and every hypothesis the enumeration evaluates carries an accepted
trait-subset. -/
theorem trait_evidence_acceptance (people : List (String × Person)) (ht : Finset String) :
    (fails_evidence people ht = false ↔
        ∀ pr ∈ people, ∀ t, pr.2.trait = some t → ((pr.1 ∈ ht) ↔ t = true))
      ∧ ∀ hyp ∈ hypotheses people, fails_evidence people hyp.1 = false := by
  constructor
  · rw [fails_evidence, List.any_eq_false]
    constructor
    · intro hall pr hpr t hts
      have hp := hall pr hpr
      rw [hts] at hp
      simp only [bne_iff_ne, ne_eq, not_not] at hp
      rw [hp]
      simp
    · intro hall pr hpr
      cases hts : pr.2.trait with
      | none => simp [hts]
      | some t =>
        have hiff := hall pr hpr t hts
        simp only [hts, bne_iff_ne, ne_eq, not_not]
        rw [Bool.eq_iff_iff, decide_eq_true_eq]
        exact hiff.symm
  · intro hyp hmem
    rcases List.mem_flatten.mp hmem with ⟨blk, hblk, hyb⟩
    rcases List.mem_map.mp hblk with ⟨htr, hhtr, rfl⟩
    rcases List.mem_map.mp hyb with ⟨gg, _, rfl⟩
    have hf := (List.mem_filter.mp hhtr).2
    simpa using hf

end Heredity
